import Mathlib

/-!
Verification of the encoder-side HPACK dynamic table of `src/hpack/table.rs`:
an open-addressing Robin Hood hash map (`indices`) layered over a FIFO ring of
header slots (`slots`), with same-name chains (`Slot.next`), byte-budgeted
eviction, and logical indices that wrap over the machine word.

Modelling conventions:
- `usize` arithmetic on logical indices (`Pos.index`, `Slot.next`, `evicted`)
  is modelled over `Nat` modulo `W = 2^64`, with `wadd`/`wsub` mirroring
  Rust's `wrapping_add`/`wrapping_sub`.
- Fallible operations (slice indexing, `Option::unwrap`, `debug_assert`,
  checked subtraction) return `Option`; `none` models a Rust panic.
- Unbounded `loop`s (the `probe_loop!` macro) are given explicit fuel that
  strictly exceeds a full wrap of the array; running out of fuel (possible
  only in states the loop would cycle through forever) also yields `none`.
- The `Header` value type lives outside this file's source (see spec §1);
  its capability surface is modelled from the spec where marked.
-/

namespace Hpack

/-- Machine word modulus for `usize` arithmetic (64-bit). -/
def W : Nat := 18446744073709551616

/-- Largest `usize` value, used by the source as a sentinel `prev_idx`. -/
def USIZE_MAX : Nat := W - 1

/-- Wrapping addition on `usize` values. -/
def wadd (a b : Nat) : Nat := (a + b) % W

/-- Wrapping subtraction on `usize` values. -/
def wsub (a b : Nat) : Nat := (a + (W - b % W)) % W

/-- Modelled from the spec: the external `Header` type is a tagged value, one
of an ordinary `(name, value)` field (carrying the sensitive flag that the
real `HeaderValue` stores) or a pseudo-header of kind Method / Scheme /
Authority / Path / Status (spec §3). -/
inductive Header where
  | field (name : String) (value : String) (sensitive : Bool)
  | authority (v : String)
  | method (v : String)
  | scheme (v : String)
  | path (v : String)
  | status (v : Nat)
deriving DecidableEq, Repr

/-- Modelled from the spec: `name()` is the opaque comparable name identity of
a header; pseudo-headers carry their RFC 7540 pseudo-header names. -/
def Header.name : Header → String
  | .field n _ _ => n
  | .authority _ => ":authority"
  | .method _ => ":method"
  | .scheme _ => ":scheme"
  | .path _ => ":path"
  | .status _ => ":status"

/-- Modelled from the spec: the value bytes of a header. -/
def Header.value : Header → String
  | .field _ v _ => v
  | .authority v => v
  | .method v => v
  | .scheme v => v
  | .path v => v
  | .status v => toString v

/-- Modelled from the spec: `value_eq(other)` is true iff the two headers are
the same kind and their values are byte-equal. -/
def Header.value_eq (a b : Header) : Bool :=
  match a, b with
  | .field _ va _, .field _ vb _ => va = vb
  | .authority va, .authority vb => va = vb
  | .method va, .method vb => va = vb
  | .scheme va, .scheme vb => va = vb
  | .path va, .path vb => va = vb
  | .status va, .status vb => va = vb
  | _, _ => false

/-- Modelled from the spec: HPACK entry cost `name bytes + value bytes + 32`
(spec §3); ASCII names and values are assumed so character count equals byte
count. -/
def Header.len (h : Header) : Nat := h.name.length + h.value.length + 32

/-- Modelled from the spec: `is_sensitive()` is the never-index flag carried
by the header value; pseudo-headers are not flagged. -/
def Header.is_sensitive : Header → Bool
  | .field _ _ s => s
  | _ => false

/-- Modelled from the spec: names that index by name only under nghttp2's
policy (spec §3). -/
def skipNames : List String :=
  ["age", "content-length", "etag", "if-modified-since", "if-none-match",
   "location", "set-cookie"]

/-- Modelled from the spec: `skip_value_index()` per nghttp2's policy for
`:path` and the `skipNames` headers (spec §3). -/
def Header.skip_value_index : Header → Bool
  | .path _ => true
  | .field n _ _ => skipNames.contains n
  | _ => false

/-- Size cap constant from the source: `MAX_SIZE = 1 << 16`. -/
def MAX_SIZE : Nat := 65536

/-- First dynamic-table index on the HPACK wire. -/
def DYN_OFFSET : Nat := 62

/-- FNV-1a 64-bit prime. -/
def fnvPrime : Nat := 1099511628211

/-- FNV-1a 64-bit offset basis. -/
def fnvOffsetBasis : Nat := 14695981039346656037

/-- Modelled from the spec: FNV-1a 64 of a byte sequence (spec §4.3); the
`fnv` crate backing `FnvHasher` is external to this repository. -/
def fnv1a64 (bytes : List Nat) : Nat :=
  bytes.foldl (fun h b => ((h ^^^ b) * fnvPrime) % W) fnvOffsetBasis

/-- Modelled from the spec: the 16-bit `HashValue` of a header name, FNV-1a 64
masked with `MAX_SIZE - 1` (spec §4.3). -/
def hashName (s : String) : Nat := fnv1a64 (s.data.map Char.toNat) &&& (MAX_SIZE - 1)

/-- Mirrors `hash_header`: hash the header by name. -/
def hash_header (h : Header) : Nat := hashName h.name

/-- Mirrors `Pos`: an index-map bucket entry, a logical slot index paired with
the name hash. -/
structure Pos where
  index : Nat
  hash : Nat
deriving DecidableEq, Repr

/-- Mirrors `Slot`: a ring entry. -/
structure Slot where
  hash : Nat
  header : Header
  next : Option Nat
deriving DecidableEq, Repr

/-- Mirrors the `Index` result enum. `Inserted`/`InsertedValue` return the
inserted header by value (the borrowed reference of the source, spec §5). -/
inductive Index where
  | Indexed (n : Nat) (h : Header)
  | Name (n : Nat) (h : Header)
  | Inserted (h : Header)
  | InsertedValue (n : Nat) (h : Header)
  | NotIndexed (h : Header)
deriving DecidableEq, Repr

/-- Mirrors `Table`. `slots` is the `VecDeque` with the list head as the ring
front (oldest entry). -/
structure Table where
  mask : Nat
  indices : Array (Option Pos)
  slots : List Slot
  evicted : Nat
  size : Nat
  max_size : Nat
deriving DecidableEq, Repr

/-- Mirrors `usable_capacity`. -/
def usable_capacity (cap : Nat) : Nat := cap - cap / 4

/-- Mirrors `to_raw_capacity`. -/
def to_raw_capacity (n : Nat) : Nat := n + n / 3

/-- Mirrors `desired_pos`. -/
def desired_pos (mask hash : Nat) : Nat := hash &&& mask

/-- Mirrors `probe_distance`. -/
def probe_distance (mask hash current : Nat) : Nat :=
  wsub current (desired_pos mask hash) &&& mask

/-- Rust's `usize::next_power_of_two`. -/
def next_power_of_two (n : Nat) : Nat :=
  if n ≤ 1 then 1 else 2 ^ (Nat.log2 (n - 1) + 1)

/-- Mirrors `Table::new`. -/
def Table.new (max_size capacity : Nat) : Table :=
  if capacity = 0 then
    { mask := 0, indices := #[], slots := [], evicted := 0, size := 0,
      max_size := max_size }
  else
    let cap := max (next_power_of_two (to_raw_capacity capacity)) 8
    { mask := cap - 1, indices := Array.mkArray cap none, slots := [],
      evicted := 0, size := 0, max_size := max_size }

/-- Mirrors `Table::capacity`. -/
def Table.capacity (t : Table) : Nat := usable_capacity t.indices.size

/-- Mirrors `Table::max_size`. -/
def Table.maxSize (t : Table) : Nat := t.max_size

/-- Mirrors `index_static`: the static-table probe. -/
def index_static (h : Header) : Option (Nat × Bool) :=
  match h with
  | .field name value _ =>
    if name = "accept-charset" then some (15, false)
    else if name = "accept-encoding" then
      (if value = "gzip, deflate" then some (16, true) else some (16, false))
    else if name = "accept-language" then some (17, false)
    else if name = "accept-ranges" then some (18, false)
    else if name = "accept" then some (19, false)
    else if name = "access-control-allow-origin" then some (20, false)
    else if name = "age" then some (21, false)
    else if name = "allow" then some (22, false)
    else if name = "authorization" then some (23, false)
    else if name = "cache-control" then some (24, false)
    else if name = "content-disposition" then some (25, false)
    else if name = "content-encoding" then some (26, false)
    else if name = "content-language" then some (27, false)
    else if name = "content-length" then some (28, false)
    else if name = "content-location" then some (29, false)
    else if name = "content-range" then some (30, false)
    else if name = "content-type" then some (31, false)
    else if name = "cookie" then some (32, false)
    else if name = "date" then some (33, false)
    else if name = "etag" then some (34, false)
    else if name = "expect" then some (35, false)
    else if name = "expires" then some (36, false)
    else if name = "from" then some (37, false)
    else if name = "host" then some (38, false)
    else if name = "if-match" then some (39, false)
    else if name = "if-modified-since" then some (40, false)
    else if name = "if-none-match" then some (41, false)
    else if name = "if-range" then some (42, false)
    else if name = "if-unmodified-since" then some (43, false)
    else if name = "last-modified" then some (44, false)
    else if name = "link" then some (45, false)
    else if name = "location" then some (46, false)
    else if name = "max-forwards" then some (47, false)
    else if name = "proxy-authenticate" then some (48, false)
    else if name = "proxy-authorization" then some (49, false)
    else if name = "range" then some (50, false)
    else if name = "referer" then some (51, false)
    else if name = "refresh" then some (52, false)
    else if name = "retry-after" then some (53, false)
    else if name = "server" then some (54, false)
    else if name = "set-cookie" then some (55, false)
    else if name = "strict-transport-security" then some (56, false)
    else if name = "transfer-encoding" then some (57, false)
    else if name = "user-agent" then some (58, false)
    else if name = "vary" then some (59, false)
    else if name = "via" then some (60, false)
    else if name = "www-authenticate" then some (61, false)
    else none
  | .authority _ => some (1, false)
  | .method v =>
    if v = "GET" then some (2, true)
    else if v = "POST" then some (3, true)
    else some (2, false)
  | .scheme v =>
    if v = "http" then some (6, true)
    else if v = "https" then some (7, true)
    else some (6, false)
  | .path v =>
    if v = "/" then some (4, true)
    else if v = "/index.html" then some (5, true)
    else some (4, false)
  | .status v =>
    if v = 200 then some (8, true)
    else if v = 204 then some (9, true)
    else if v = 206 then some (10, true)
    else if v = 304 then some (11, true)
    else if v = 400 then some (12, true)
    else if v = 404 then some (13, true)
    else if v = 500 then some (14, true)
    else some (8, false)

/-- Mirrors `Index::new`. -/
def Index.new (v : Option (Nat × Bool)) (e : Header) : Index :=
  match v with
  | none => .NotIndexed e
  | some (n, true) => .Indexed n e
  | some (n, false) => .Name n e

/-- Mirrors `remove_phase_two`: Robin Hood backward-shift after a bucket was
cleared. `lastProbe` starts at the cleared bucket; `none` models a panic or a
forever-cycling loop. -/
def remove_phase_two (indices : Array (Option Pos)) (mask lastProbe probe fuel : Nat) :
    Option (Array (Option Pos)) :=
  match fuel with
  | 0 => none
  | fuel + 1 =>
    if hp : probe < indices.size then
      match indices.get ⟨probe, hp⟩ with
      | some pos =>
        if probe_distance mask pos.hash probe > 0 then
          if hl : lastProbe < indices.size then
            let indices := (indices.set ⟨lastProbe, hl⟩ (some pos)).set
              ⟨probe, by simpa using hp⟩ none
            remove_phase_two indices mask probe (probe + 1) fuel
          else none
        else some indices
      | none => some indices
    else remove_phase_two indices mask lastProbe 0 fuel

/-- Mirrors the probe loop of `evict`: find the `Pos` whose logical index is
`pos_idx` (the just-popped slot) and apply the three-way branch. Returns the
updated index map together with the matched bucket. -/
def evictLoop (indices : Array (Option Pos)) (mask pos_idx prev_idx : Nat)
    (slotNext : Option Nat) (restLen evicted probe fuel : Nat) :
    Option (Array (Option Pos) × Nat) :=
  match fuel with
  | 0 => none
  | fuel + 1 =>
    if hp : probe < indices.size then
      match indices.get ⟨probe, hp⟩ with
      | none => none
      | some pos =>
        if pos.index = pos_idx then
          match slotNext with
          | some idx => some (indices.set ⟨probe, hp⟩ (some { pos with index := idx }), probe)
          | none =>
            if pos.index = prev_idx then
              some (indices.set ⟨probe, hp⟩
                (some { pos with index := wadd (restLen + 1) evicted }), probe)
            else
              match remove_phase_two (indices.set ⟨probe, hp⟩ none) mask probe (probe + 1)
                  (2 * indices.size + 2) with
              | none => none
              | some indices => some (indices, probe)
        else
          evictLoop indices mask pos_idx prev_idx slotNext restLen evicted (probe + 1) fuel
    else evictLoop indices mask pos_idx prev_idx slotNext restLen evicted 0 fuel

/-- Mirrors `Table::evict`: pop the oldest slot, fix the index map, bump the
eviction counter. -/
def Table.evict (t : Table) (prev_idx : Nat) : Option Table :=
  match t.slots with
  | [] => none
  | slot :: rest =>
    if slot.header.len ≤ t.size then
      match evictLoop t.indices t.mask t.evicted prev_idx slot.next rest.length t.evicted
          (desired_pos t.mask slot.hash) (2 * t.indices.size + 2) with
      | none => none
      | some (indices, _) =>
        some { t with
          indices := indices
          slots := rest
          evicted := wadd t.evicted 1
          size := t.size - slot.header.len }
    else none

/-- Mirrors the `while` loop of `Table::converge`. -/
def Table.convergeLoop (t : Table) (prev_idx : Nat) (r : Bool) (fuel : Nat) :
    Option (Bool × Table) :=
  match fuel with
  | 0 => none
  | fuel + 1 =>
    if t.size > t.max_size then
      match t.evict prev_idx with
      | none => none
      | some t => t.convergeLoop prev_idx true fuel
    else some (r, t)

/-- Mirrors `Table::converge`. -/
def Table.converge (t : Table) (prev_idx : Nat) : Option (Bool × Table) :=
  t.convergeLoop prev_idx false (t.slots.length + 2)

/-- Mirrors `Table::update_size`. -/
def Table.update_size (t : Table) (len prev_idx : Nat) : Option (Bool × Table) :=
  Table.converge { t with size := t.size + len } prev_idx

/-- Mirrors `reinsert_entry_in_order`'s probe loop: place `pos` at the first
empty bucket from its desired position. -/
def reinsertLoop (indices : Array (Option Pos)) (pos : Pos) (probe fuel : Nat) :
    Option (Array (Option Pos)) :=
  match fuel with
  | 0 => none
  | fuel + 1 =>
    if hp : probe < indices.size then
      match indices.get ⟨probe, hp⟩ with
      | none => some (indices.set ⟨probe, hp⟩ (some pos))
      | some _ => reinsertLoop indices pos (probe + 1) fuel
    else reinsertLoop indices pos 0 fuel

/-- Mirrors `Table::reinsert_entry_in_order`. -/
def reinsert_entry_in_order (indices : Array (Option Pos)) (mask : Nat)
    (pos : Option Pos) : Option (Array (Option Pos)) :=
  match pos with
  | none => some indices
  | some pos => reinsertLoop indices pos (desired_pos mask pos.hash) (2 * indices.size + 2)

/-- Mirrors the pre-scan of `Table::grow`: the first bucket whose occupant
passes the source's test `probe_distance(mask, pos.hash, pos.index) == 0`
(note: the source checks the occupant's logical slot index, not the bucket
position), defaulting to `0`. -/
def growFirstIdeal (indices : Array (Option Pos)) (mask : Nat) : Nat :=
  match indices.toList.findIdx? (fun op =>
      match op with
      | some pos => probe_distance mask pos.hash pos.index == 0
      | none => false) with
  | some i => i
  | none => 0

/-- Mirrors `Table::grow`: double the raw capacity and rehash, reinserting the
old buckets starting from `growFirstIdeal` and wrapping around. -/
def Table.grow (t : Table) (new_raw_cap : Nat) : Option Table :=
  let first_ideal := growFirstIdeal t.indices t.mask
  let oldList := t.indices.toList
  let newMask := new_raw_cap - 1
  let init : Array (Option Pos) := Array.mkArray new_raw_cap none
  match (oldList.drop first_ideal ++ oldList.take first_ideal).foldlM
      (fun acc op => reinsert_entry_in_order acc newMask op) init with
  | none => none
  | some indices => some { t with mask := newMask, indices := indices }

/-- Mirrors `Table::reserve_one`. -/
def Table.reserve_one (t : Table) : Option Table :=
  if t.slots.length = t.capacity then
    if t.slots.length = 0 then
      some { t with mask := 7, indices := Array.mkArray 8 none }
    else t.grow (t.indices.size * 2)
  else some t

/-- Outcome of the probe loop in `index_dynamic`: either a vacant / Robin Hood
steal point (with the current `dist` and `probe`), or a name hit at the given
logical index. -/
inductive ProbeResult where
  | vacant (dist probe : Nat)
  | occupied (index : Nat)
deriving DecidableEq, Repr

/-- Mirrors the probe loop of `index_dynamic` as a pure decision: stop at an
empty bucket or Robin Hood steal point (vacant insertion), or at a matching
hash whose head slot has the probed name (occupied). -/
def Table.probeDecision (t : Table) (hash : Nat) (name : String)
    (probe dist fuel : Nat) : Option ProbeResult :=
  match fuel with
  | 0 => none
  | fuel + 1 =>
    if hp : probe < t.indices.size then
      match t.indices.get ⟨probe, hp⟩ with
      | some pos =>
        if probe_distance t.mask pos.hash probe < dist then
          some (.vacant dist probe)
        else if pos.hash = hash then
          match t.slots[wsub pos.index t.evicted]? with
          | none => none
          | some slot =>
            if slot.header.name = name then some (.occupied pos.index)
            else t.probeDecision hash name (probe + 1) (dist + 1) fuel
        else t.probeDecision hash name (probe + 1) (dist + 1) fuel
      | none => some (.vacant dist probe)
    else t.probeDecision hash name 0 dist fuel

/-- Outcome of the chain walk in `index_occupied`: a full value match at ring
position `realIdx`, or the chain tail (ring position and logical index). -/
inductive WalkResult where
  | matched (realIdx : Nat)
  | tail (realIdx index : Nat)
deriving DecidableEq, Repr

/-- Mirrors the chain walk of `index_occupied` as a pure decision. -/
def Table.walkOutcome (t : Table) (header : Header) (index fuel : Nat) :
    Option WalkResult :=
  match fuel with
  | 0 => none
  | fuel + 1 =>
    let real_idx := wsub index t.evicted
    match t.slots[real_idx]? with
    | none => none
    | some slot =>
      if slot.header.value_eq header then some (.matched real_idx)
      else
        match slot.next with
        | some nxt => t.walkOutcome header nxt fuel
        | none => some (.tail real_idx index)

/-- Mirrors `Table::index_occupied`. -/
def Table.index_occupied (t : Table) (header : Header) (hash index : Nat) :
    Option (Index × Table) :=
  match t.walkOutcome header index (t.slots.length + 1) with
  | none => none
  | some (.matched r) => some (.Indexed (r + DYN_OFFSET) header, t)
  | some (.tail r idx) =>
    if header.is_sensitive then some (.Name (r + DYN_OFFSET) header, t)
    else
      match t.update_size header.len idx with
      | none => none
      | some (_, t1) =>
        let new_idx := t1.slots.length
        let linkStep : Option Table :=
          if t1.evicted ≤ idx then
            let real2 := wsub idx t1.evicted
            match t1.slots[real2]? with
            | none => none
            | some s =>
              some { t1 with
                slots := t1.slots.set real2 { s with next := some (wadd new_idx t1.evicted) } }
          else some t1
        match linkStep with
        | none => none
        | some t2 =>
          some (.InsertedValue (r + DYN_OFFSET) header,
            { t2 with slots := t2.slots ++ [Slot.mk hash header none] })

/-- Mirrors the shift-forward loop of `index_vacant`: keep swapping the
displaced `Pos` forward until an empty bucket absorbs it. -/
def shiftForwardLoop (indices : Array (Option Pos)) (prev : Pos) (probe fuel : Nat) :
    Option (Array (Option Pos)) :=
  match fuel with
  | 0 => none
  | fuel + 1 =>
    if hp : probe < indices.size then
      match indices.get ⟨probe, hp⟩ with
      | none => some (indices.set ⟨probe, hp⟩ (some prev))
      | some p => shiftForwardLoop (indices.set ⟨probe, hp⟩ (some prev)) p (probe + 1) fuel
    else shiftForwardLoop indices prev 0 fuel

/-- Mirrors `Table::index_vacant`. -/
def Table.index_vacant (t : Table) (header : Header) (hash dist probe : Nat)
    (statik : Option (Nat × Bool)) : Option (Index × Table) :=
  if header.is_sensitive then some (Index.new statik header, t)
  else
    match t.update_size header.len USIZE_MAX with
    | none => none
    | some (ret, t1) =>
      let probeStep : Option Nat :=
        if ret = true ∧ dist ≠ 0 then
          let back := wsub probe 1 &&& t1.mask
          match t1.indices[probe]? with
          | none => none
          | some none => some back
          | some (some pos) =>
            if probe_distance t1.mask pos.hash probe < dist then some back
            else some probe
        else some probe
      match probeStep with
      | none => none
      | some probe =>
        let slot_idx := t1.slots.length
        let pos_idx := wadd slot_idx t1.evicted
        let t2 := { t1 with slots := t1.slots ++ [Slot.mk hash header none] }
        if hp : probe < t2.indices.size then
          let prev := t2.indices.get ⟨probe, hp⟩
          let t3 := { t2 with indices := t2.indices.set ⟨probe, hp⟩ (some ⟨pos_idx, hash⟩) }
          let after : Option Table :=
            match prev with
            | none => some t3
            | some prevPos =>
              match shiftForwardLoop t3.indices prevPos (probe + 1)
                  (2 * t3.indices.size + 2) with
              | none => none
              | some indices => some { t3 with indices := indices }
          match after with
          | none => none
          | some t4 =>
            match statik with
            | some (n, _) => some (.InsertedValue n header, t4)
            | none => some (.Inserted header, t4)
        else none

/-- Mirrors `Table::index_dynamic`. -/
def Table.index_dynamic (t : Table) (header : Header)
    (statik : Option (Nat × Bool)) : Option (Index × Table) :=
  let pre : Option Table :=
    if header.len + t.size < t.max_size ∨ header.is_sensitive = false then
      t.reserve_one
    else some t
  match pre with
  | none => none
  | some t1 =>
    if t1.indices.size = 0 then some (Index.new statik header, t1)
    else
      let hash := hash_header header
      match t1.probeDecision hash header.name (desired_pos t1.mask hash) 0
          (2 * t1.indices.size + 2) with
      | none => none
      | some (.vacant dist probe) => t1.index_vacant header hash dist probe statik
      | some (.occupied idx) => t1.index_occupied header hash idx

/-- Mirrors `Table::index`, the public entry point. -/
def Table.index (t : Table) (header : Header) : Option (Index × Table) :=
  let statik := index_static header
  if header.skip_value_index then some (Index.new statik header, t)
  else
    match statik with
    | some (n, true) => some (.Indexed n header, t)
    | _ =>
      if header.len * 4 > t.max_size * 3 then some (Index.new statik header, t)
      else t.index_dynamic header statik

/-- Mirrors `Table::resize`. -/
def Table.resize (t : Table) (size : Nat) : Option Table :=
  let t1 := { t with max_size := size }
  if size = 0 then
    some { t1 with
      size := 0
      indices := t1.indices.map (fun _ => none)
      slots := []
      evicted := 0 }
  else
    match t1.converge USIZE_MAX with
    | none => none
    | some (_, t2) => some t2

/-! ### States reachable through the public interface -/

/-- States reachable from `Table::new` through `index` and `resize` (a failing
step, i.e. a Rust panic, produces no successor state). Constructor arguments
are `usize` values, hence below `W`. -/
inductive Reachable : Table → Prop where
  | new (max_size capacity : Nat) (hm : max_size < W) (hc : capacity < W) :
      Reachable (Table.new max_size capacity)
  | index (t : Table) (h : Header) (r : Index) (t' : Table) :
      Reachable t → t.index h = some (r, t') → Reachable t'
  | resize (t : Table) (n : Nat) (t' : Table) (hn : n < W) :
      Reachable t → t.resize n = some t' → Reachable t'

/-- Total byte cost of a list of slots (spec §3 invariant 1). -/
def sumLens : List Slot → Nat
  | [] => 0
  | s :: rest => s.header.len + sumLens rest

/-- Boolean check that the chain link from ring offset `o` to logical index
`j` is sound: the target is live, strictly newer, and same-name. -/
def nextTargetOk (t : Table) (o j : Nat) (s : Slot) : Bool :=
  match t.slots[wsub j t.evicted]? with
  | none => false
  | some s2 =>
    decide (j < W) && decide (o < wsub j t.evicted) &&
      (s2.header.name == s.header.name)

/-- Boolean check that slot `s` (at ring offset `o`) has a sound `next`. -/
def nextLinkOk (t : Table) (o : Nat) (s : Slot) : Bool :=
  match s.next with
  | none => true
  | some j => nextTargetOk t o j s

/-- Chain soundness at ring position `o` (boolean check): if the slot there
has a `next` link, the link denotes a live slot that is strictly newer
(greater ring offset, i.e. inserted later) and has the same name. -/
def nextOkAt (t : Table) (o : Nat) : Bool :=
  match t.slots[o]? with
  | none => true
  | some s => nextLinkOk t o s

/-- Chain soundness for the whole ring. -/
def NextOk (t : Table) : Prop := ∀ o < t.slots.length, nextOkAt t o = true

/-- One step along a same-name chain, between ring offsets. -/
def NextStep (t : Table) (a b : Nat) : Prop :=
  ∃ s j, t.slots[a]? = some s ∧ s.next = some j ∧ wsub j t.evicted = b

/-- Inductive invariant carried through every public operation: byte-budget
accounting plus chain soundness, with the representation bounds that make the
wrapping arithmetic meaningful. -/
def Inv (t : Table) : Prop :=
  t.size = sumLens t.slots ∧ t.size ≤ t.max_size ∧ t.max_size < W ∧
    t.evicted < W ∧ NextOk t

/-! ### Faithful transcription of the spec §3 state invariants (decidable) -/

/-- Spec §3 invariant 1: `size = Σ slot.header.len()` over live slots and
`size ≤ max_size`. -/
def Inv3Budget (t : Table) : Prop :=
  t.size = sumLens t.slots ∧ t.size ≤ t.max_size

/-- Spec §3 invariant 2: index-map capacity (when non-zero) is a power of two
`≥ 8`, `mask = cap - 1`, and the ring never exceeds `usable(cap)`; `usize`
representation bounds included. -/
def Inv3Caps (t : Table) : Prop :=
  (t.indices.size = 0 ∧ t.mask = 0 ∨
    8 ≤ t.indices.size ∧ t.indices.size &&& (t.indices.size - 1) = 0 ∧
      t.mask = t.indices.size - 1) ∧
  t.slots.length ≤ usable_capacity t.indices.size ∧
  t.indices.size < W ∧ t.evicted < W ∧ t.max_size < W

/-- Spec §3 invariant 3 (boolean check): every `Pos` refers to a live slot. -/
def posLiveAt (t : Table) (b : Nat) : Bool :=
  match t.indices[b]? with
  | some (some pos) =>
    decide (pos.index < W) && decide (wsub pos.index t.evicted < t.slots.length)
  | _ => true

/-- Spec §3 invariant 3: every `Pos` refers to a live slot. -/
def Inv3PosLive (t : Table) : Prop := ∀ b < t.indices.size, posLiveAt t b = true

/-- Boolean check that two buckets do not carry the same logical index. -/
def posDistinctAt (t : Table) (b1 b2 : Nat) : Bool :=
  match t.indices[b1]?, t.indices[b2]? with
  | some (some p1), some (some p2) => b1 == b2 || !(p1.index == p2.index)
  | _, _ => true

/-- Two distinct buckets never carry the same logical index (the
one-reachable-path part of spec §3 invariant 4). -/
def Inv3PosDistinct (t : Table) : Prop :=
  ∀ b1 < t.indices.size, ∀ b2 < t.indices.size, posDistinctAt t b1 b2 = true

/-- Boolean check that ring offset `o` is a chain head: no live slot's `next`
points at it. -/
def isChainHead (t : Table) (o : Nat) : Bool :=
  (List.range t.slots.length).all fun o2 =>
    match t.slots[o2]? with
    | some s2 => !(s2.next == some (wadd t.evicted o))
    | none => true

/-- Boolean check that some bucket points at logical index `wadd evicted o`. -/
def headCovered (t : Table) (o : Nat) : Bool :=
  (List.range t.indices.size).any fun b =>
    match t.indices[b]? with
    | some (some pos) => pos.index == wadd t.evicted o
    | _ => false

/-- Spec §3 invariant 4 (coverage direction): every live chain head is
pointed at by some bucket of the index map. -/
def Inv3HeadCover (t : Table) : Prop :=
  ∀ o < t.slots.length, isChainHead t o = true → headCovered t o = true

/-- Boolean check for spec §2/§3 data-model hash consistency: a slot's stored
hash is the hash of its header name, and a `Pos` carries the hash of the
(same-name) chain slot it points at. -/
def hashesOk (t : Table) : Bool :=
  ((List.range t.slots.length).all fun o =>
    match t.slots[o]? with
    | some s => s.hash == hashName s.header.name
    | none => true) &&
  ((List.range t.indices.size).all fun b =>
    match t.indices[b]? with
    | some (some pos) =>
      match t.slots[wsub pos.index t.evicted]? with
      | some s => pos.hash == s.hash
      | none => true
    | _ => true)

/-- Spec §3 invariants 5 and 6 (Robin Hood, no tombstones), in the form used
by every probe: for an occupant at bucket `b`, every bucket along its probe
path from its desired position is occupied, by an entry displaced at least as
far as the path position. -/
def rhOk (indices : Array (Option Pos)) (mask : Nat) : Bool :=
  (List.range indices.size).all fun b =>
    match indices[b]? with
    | some (some pos) =>
      (List.range (probe_distance mask pos.hash b)).all fun d =>
        let i := (desired_pos mask pos.hash + d) &&& mask
        match indices[i]? with
        | some (some q) => decide (d ≤ probe_distance mask q.hash i)
        | _ => false
    | _ => true

/-- The full bundle of spec §3 state invariants. -/
def Inv3 (t : Table) : Prop :=
  Inv3Budget t ∧ Inv3Caps t ∧ Inv3PosLive t ∧ Inv3PosDistinct t ∧ NextOk t ∧
    Inv3HeadCover t ∧ hashesOk t = true ∧ rhOk t.indices t.mask = true

instance (t : Table) : Decidable (Inv3Budget t) := by
  unfold Inv3Budget; infer_instance

instance (t : Table) : Decidable (Inv3Caps t) := by
  unfold Inv3Caps; infer_instance

instance (t : Table) : Decidable (Inv3PosLive t) := by
  unfold Inv3PosLive; infer_instance

instance (t : Table) : Decidable (Inv3PosDistinct t) := by
  unfold Inv3PosDistinct; infer_instance

instance (t : Table) : Decidable (NextOk t) := by
  unfold NextOk; infer_instance

instance (t : Table) : Decidable (Inv3HeadCover t) := by
  unfold Inv3HeadCover; infer_instance

instance (t : Table) : Decidable (Inv3 t) := by
  unfold Inv3; infer_instance

/-! ### Spec-side reference definitions for claim comparisons -/

/-- Modelled from the spec: the pre-scan of §4.6 finds the first bucket whose
occupant is ideally placed, `probe_distance(mask, pos.hash, i) == 0` with `i`
the bucket position. -/
def specFirstIdeal (indices : Array (Option Pos)) (mask : Nat) : Option Nat :=
  (List.range indices.size).find? fun i =>
    match indices[i]? with
    | some (some pos) => probe_distance mask pos.hash i == 0
    | _ => false

/-- Modelled from the spec: `grow` as described in §4.6, identical to
`Table.grow` except that the rehash pass starts at the first genuinely
ideally-placed bucket. -/
def Table.specGrow (t : Table) (new_raw_cap : Nat) : Option Table :=
  let first_ideal := (specFirstIdeal t.indices t.mask).getD 0
  let oldList := t.indices.toList
  let newMask := new_raw_cap - 1
  let init : Array (Option Pos) := Array.mkArray new_raw_cap none
  match (oldList.drop first_ideal ++ oldList.take first_ideal).foldlM
      (fun acc op => reinsert_entry_in_order acc newMask op) init with
  | none => none
  | some indices => some { t with mask := newMask, indices := indices }

/-! ### Concrete states used by counterexamples and witnesses -/

/-- Step helper for building concrete reachable states (the successful-step
projection of `index`). -/
def afterIndex (t : Table) (h : Header) : Table :=
  match t.index h with
  | some p => p.2
  | none => t

/-- Ordinary header `a: x`. -/
def hdrAx : Header := .field "a" "x" false

/-- Ordinary header `a: y`. -/
def hdrAy : Header := .field "a" "y" false

/-- Sensitive header `a: x`. -/
def hdrAxS : Header := .field "a" "x" true

/-- Sensitive header `a: y`. -/
def hdrAyS : Header := .field "a" "y" true

/-- Table after indexing `a: x` into a fresh table with `max_size = 4096`. -/
def tabAx : Table := afterIndex (Table.new 4096 0) hdrAx

/-- Table after then indexing `a: y` (same name, new value): the two slots
form a name chain, oldest first. -/
def tabAxy : Table := afterIndex tabAx hdrAy

/-- Table after indexing `a: x` into a fresh table with `max_size = 50`, so a
second `a:` insertion must evict it. -/
def tabTight : Table := afterIndex (Table.new 50 0) hdrAx

/-- The literal result of `tabTight.evict 0` (matched bucket 4 retained with
logical index 1). -/
def tabTightEvicted : Table :=
  { tabTight with
    indices := #[none, none, none, none, some ⟨1, 60556⟩, none, none, none]
    slots := []
    evicted := 1
    size := 0 }


/-- Field header constructor for the grow scenario. -/
def mkF (n : String) : Header := .field n "v" false

/-- Six distinct-name inserts (names `i y e n d b`) chosen so that the grow
pre-scan of the source diverges from the spec's: the ring is at
`usable_capacity 8 = 6`, so the next insertion grows the map. -/
def tabGrow : Table :=
  afterIndex (afterIndex (afterIndex (afterIndex (afterIndex (afterIndex
    (Table.new 4096 0) (mkF "i")) (mkF "y")) (mkF "e")) (mkF "n")) (mkF "d")) (mkF "b")

/-- A table state satisfying every spec §3 invariant whose eviction counter
sits at `usize::MAX`, about to wrap: one live slot `a: x` of logical index
`W - 1`, byte budget 50. -/
def tabWrap : Table :=
  { mask := 7
    indices := #[none, none, none, none, some ⟨W - 1, 60556⟩, none, none, none]
    slots := [⟨60556, hdrAx, none⟩]
    evicted := W - 1
    size := 34
    max_size := 50 }

/-- Table after a sensitive header hits a fresh zero-capacity table: nothing
is inserted but `reserve_one` has allocated the 8-bucket index map. -/
def tabSens : Table := afterIndex (Table.new 4096 0) hdrAxS

/-- Status codes with a full static-table match, paired with their index. -/
def statusPairs : List (Nat × Nat) :=
  [(200, 8), (204, 9), (206, 10), (304, 11), (400, 12), (404, 13), (500, 14)]

/-- Status codes with a full static-table match. -/
def statusCodes : List Nat := [200, 204, 206, 304, 400, 404, 500]

/-- Canonical static-table field names mapped by `index_static` to
`(n, false)` unconditionally (all but `accept-encoding`). -/
def staticNames : List (String × Nat) :=
  [("accept-charset", 15), ("accept-language", 17), ("accept-ranges", 18),
   ("accept", 19), ("access-control-allow-origin", 20), ("age", 21),
   ("allow", 22), ("authorization", 23), ("cache-control", 24),
   ("content-disposition", 25), ("content-encoding", 26),
   ("content-language", 27), ("content-length", 28), ("content-location", 29),
   ("content-range", 30), ("content-type", 31), ("cookie", 32), ("date", 33),
   ("etag", 34), ("expect", 35), ("expires", 36), ("from", 37), ("host", 38),
   ("if-match", 39), ("if-modified-since", 40), ("if-none-match", 41),
   ("if-range", 42), ("if-unmodified-since", 43), ("last-modified", 44),
   ("link", 45), ("location", 46), ("max-forwards", 47),
   ("proxy-authenticate", 48), ("proxy-authorization", 49), ("range", 50),
   ("referer", 51), ("refresh", 52), ("retry-after", 53), ("server", 54),
   ("set-cookie", 55), ("strict-transport-security", 56),
   ("transfer-encoding", 57), ("user-agent", 58), ("vary", 59), ("via", 60),
   ("www-authenticate", 61)]

/-- All canonical static-table field names recognized by `index_static`. -/
def canonNames : List String :=
  ["accept-charset", "accept-encoding", "accept-language", "accept-ranges",
   "accept", "access-control-allow-origin", "age", "allow", "authorization",
   "cache-control", "content-disposition", "content-encoding",
   "content-language", "content-length", "content-location", "content-range",
   "content-type", "cookie", "date", "etag", "expect", "expires", "from",
   "host", "if-match", "if-modified-since", "if-none-match", "if-range",
   "if-unmodified-since", "last-modified", "link", "location", "max-forwards",
   "proxy-authenticate", "proxy-authorization", "range", "referer", "refresh",
   "retry-after", "server", "set-cookie", "strict-transport-security",
   "transfer-encoding", "user-agent", "vary", "via", "www-authenticate"]

/-! ## Theorems -/

/-- Successful `index` steps preserve reachability (projection helper). -/
theorem reachable_afterIndex {t : Table} (ht : Reachable t) (h : Header)
    (hs : (t.index h).isSome = true) : Reachable (afterIndex t h) := by
  cases he : t.index h with
  | none => rw [he] at hs; simp at hs
  | some p =>
    have heq : afterIndex t h = p.2 := by unfold afterIndex; rw [he]
    rw [heq]
    exact Reachable.index t h p.1 p.2 ht (by rw [he])

/-- The two-entry chain state is reachable. -/
theorem reachable_tabAxy : Reachable tabAxy :=
  reachable_afterIndex
    (reachable_afterIndex (Reachable.new 4096 0 (by decide) (by decide)) hdrAx (by decide))
    hdrAy (by decide)

/-- The tight-budget one-entry state is reachable. -/
theorem reachable_tabTight : Reachable tabTight :=
  reachable_afterIndex (Reachable.new 50 0 (by decide) (by decide)) hdrAx (by decide)

/-- The six-entry grow-ready state is reachable. -/
theorem reachable_tabGrow : Reachable tabGrow :=
  reachable_afterIndex (reachable_afterIndex (reachable_afterIndex
    (reachable_afterIndex (reachable_afterIndex (reachable_afterIndex
      (Reachable.new 4096 0 (by decide) (by decide))
      (mkF "i") (by decide)) (mkF "y") (by decide)) (mkF "e") (by decide))
      (mkF "n") (by decide)) (mkF "d") (by decide)) (mkF "b") (by decide)

/-- C1: the claim requires dynamic indices to count from the newest entry
(index 62 = most recently inserted). In the reachable state `tabAxy` the ring
holds `a: x` (older, ring offset 0) and `a: y` (newest, ring offset 1);
re-indexing `a: y` — which value-equals the most recently inserted live
entry — must return `Indexed(62, _)` by the claim, but the code computes
`real_idx + 62` with `real_idx` counted from the oldest end and returns
`Indexed(63, _)`. -/
theorem c1_dynamic_index_numbering_diverges :
    Reachable tabAxy ∧
    tabAxy.slots.length = 2 ∧
    tabAxy.slots[1]?.map Slot.header = some hdrAy ∧
    (tabAxy.index hdrAy).map Prod.fst = some (.Indexed 63 hdrAy) ∧
    Index.Indexed 63 hdrAy ≠ Index.Indexed 62 hdrAy :=
  ⟨reachable_tabAxy, by decide, by decide, by decide, by decide⟩

/-- C2 counterexample: in the reachable state `tabAxy` the older slot
(ring offset 0, holding `a: x`) carries `next = some 1`, whose target has
ring offset `wsub 1 evicted = 1 > 0`: the link points at the strictly *newer*
same-name slot `a: y`, refuting the claim that every `next` link points at an
older slot (newest-first chain order). -/
theorem c2_counterexample :
    Reachable tabAxy ∧
    tabAxy.slots[0]?.map Slot.header = some hdrAx ∧
    tabAxy.slots[1]?.map Slot.header = some hdrAy ∧
    tabAxy.slots[0]?.map Slot.next = some (some 1) ∧
    wsub 1 tabAxy.evicted = 1 ∧ 0 < wsub 1 tabAxy.evicted :=
  ⟨reachable_tabAxy, by decide, by decide, by decide, by decide, by decide⟩

/-- C4 counterexample: in the reachable state `tabTight` (one slot `a: x`,
logical index 0, `size = 34`, `max_size = 50`), the call `evict 0` — exactly
the call `index(a: y)` makes through `update_size(34, 0)` — pops a slot with
no `next` whose matched `Pos` equals `prev_idx = 0`. The bucket is retained
with logical index `1 = len_after_pop + 1 + evicted_before_increment`,
whereas the claim's formula `len_after_pop + 1 + evicted_after_increment`
gives `0 + 1 + 1 = 2 ≠ 1`. -/
theorem c4_counterexample :
    Reachable tabTight ∧
    tabTight.slots = [⟨60556, hdrAx, none⟩] ∧
    tabTight.evicted = 0 ∧
    tabTight.indices[4]? = some (some ⟨0, 60556⟩) ∧
    tabTight.evict 0 = some { tabTight with
      indices := #[none, none, none, none, some ⟨1, 60556⟩, none, none, none]
      slots := []
      evicted := 1
      size := 0 } ∧
    (1 : Nat) ≠ 0 + 1 + (0 + 1) :=
  ⟨reachable_tabTight, by decide, by decide, by decide, by decide, by decide⟩

/-- C5: the grow pre-scan of the source tests
`probe_distance(mask, pos.hash, pos.index) == 0` — the occupant's *logical
slot index* — instead of the bucket position, contradicting both the claim
and the source's own comment ("find first ideally placed element -- start of
cluster"). In the reachable state `tabGrow` (ring full at
`usable_capacity 8 = 6`, so the next insertion calls `grow 16`): the first
genuinely ideally-placed bucket is 0, the code picks bucket 6, and the
resulting rehash violates the Robin Hood invariant that the claim says is
preserved, while the spec-ordered rehash preserves it. -/
theorem c5_grow_prescan_diverges :
    Reachable tabGrow ∧
    tabGrow.slots.length = usable_capacity tabGrow.indices.size ∧
    rhOk tabGrow.indices tabGrow.mask = true ∧
    specFirstIdeal tabGrow.indices tabGrow.mask = some 0 ∧
    growFirstIdeal tabGrow.indices tabGrow.mask = 6 ∧
    (tabGrow.grow 16).map (fun t => rhOk t.indices t.mask) = some false ∧
    (tabGrow.specGrow 16).map (fun t => rhOk t.indices t.mask) = some true ∧
    ((tabGrow.index (mkF "h")).map (fun p => rhOk p.2.indices p.2.mask)) = some false :=
  ⟨reachable_tabGrow, by decide, by decide, by decide, by decide, by decide,
    by decide, by decide⟩

/-- C8: a state in which every spec §3 invariant holds but `index` hits an
out-of-bounds slot access (a Rust panic), refuting totality as claimed: in
`tabWrap` the eviction counter sits at `usize::MAX`; indexing `a: y` evicts
the chain tail, the wrap makes the stale-tail test `evicted <= index` pass,
and `slots[index.wrapping_sub(evicted)]` indexes far out of bounds. The
source marks this logic `TODO: This logic isn't correct in the face of
wrapping`. -/
theorem c8_wrap_state_panics :
    Inv3 tabWrap ∧ tabWrap.index hdrAy = none :=
  ⟨by decide, by decide⟩

/-- C7: `index_static` is a pure function of the header realizing exactly the
RFC 7541 static-table probe of spec §4.1: pseudo-header rules for
`:authority`, `:method`, `:path`, `:scheme`, `:status`; the `accept-encoding`
value rule; every other canonical static name to `(n, false)`; unknown
ordinary names to `none`. -/
theorem c7_static_table :
    (∀ v, index_static (.authority v) = some (1, false)) ∧
    index_static (.method "GET") = some (2, true) ∧
    index_static (.method "POST") = some (3, true) ∧
    (∀ v, v ≠ "GET" → v ≠ "POST" → index_static (.method v) = some (2, false)) ∧
    index_static (.path "/") = some (4, true) ∧
    index_static (.path "/index.html") = some (5, true) ∧
    (∀ v, v ≠ "/" → v ≠ "/index.html" → index_static (.path v) = some (4, false)) ∧
    index_static (.scheme "http") = some (6, true) ∧
    index_static (.scheme "https") = some (7, true) ∧
    (∀ v, v ≠ "http" → v ≠ "https" → index_static (.scheme v) = some (6, false)) ∧
    (∀ p ∈ statusPairs, index_static (.status p.1) = some (p.2, true)) ∧
    (∀ v, v ∉ statusCodes → index_static (.status v) = some (8, false)) ∧
    (∀ s, index_static (.field "accept-encoding" "gzip, deflate" s) = some (16, true)) ∧
    (∀ v s, v ≠ "gzip, deflate" → index_static (.field "accept-encoding" v s) = some (16, false)) ∧
    (∀ p ∈ staticNames, ∀ v s, index_static (.field p.1 v s) = some (p.2, false)) ∧
    (∀ name v s, name ∉ canonNames → index_static (.field name v s) = none) := by
  refine ⟨fun v => rfl, rfl, rfl, ?_, rfl, rfl, ?_, rfl, rfl, ?_, ?_, ?_, fun s => rfl, ?_, ?_, ?_⟩
  · intro v h1 h2
    simp only [index_static, if_neg h1, if_neg h2]
  · intro v h1 h2
    simp only [index_static, if_neg h1, if_neg h2]
  · intro v h1 h2
    simp only [index_static, if_neg h1, if_neg h2]
  · intro p hp
    fin_cases hp <;> rfl
  · intro v hv
    simp only [statusCodes, List.mem_cons, List.not_mem_nil, or_false, not_or] at hv
    obtain ⟨h1, h2, h3, h4, h5, h6, h7⟩ := hv
    simp only [index_static, if_neg h1, if_neg h2, if_neg h3, if_neg h4, if_neg h5,
      if_neg h6, if_neg h7]
  · intro v s h1
    simp [index_static, h1]
  · intro p hp v s
    fin_cases hp <;> rfl
  · intro name v s hn
    have e0 : name ≠ "accept-charset" := fun e => hn (by rw [e]; decide)
    have e1 : name ≠ "accept-encoding" := fun e => hn (by rw [e]; decide)
    have e2 : name ≠ "accept-language" := fun e => hn (by rw [e]; decide)
    have e3 : name ≠ "accept-ranges" := fun e => hn (by rw [e]; decide)
    have e4 : name ≠ "accept" := fun e => hn (by rw [e]; decide)
    have e5 : name ≠ "access-control-allow-origin" := fun e => hn (by rw [e]; decide)
    have e6 : name ≠ "age" := fun e => hn (by rw [e]; decide)
    have e7 : name ≠ "allow" := fun e => hn (by rw [e]; decide)
    have e8 : name ≠ "authorization" := fun e => hn (by rw [e]; decide)
    have e9 : name ≠ "cache-control" := fun e => hn (by rw [e]; decide)
    have e10 : name ≠ "content-disposition" := fun e => hn (by rw [e]; decide)
    have e11 : name ≠ "content-encoding" := fun e => hn (by rw [e]; decide)
    have e12 : name ≠ "content-language" := fun e => hn (by rw [e]; decide)
    have e13 : name ≠ "content-length" := fun e => hn (by rw [e]; decide)
    have e14 : name ≠ "content-location" := fun e => hn (by rw [e]; decide)
    have e15 : name ≠ "content-range" := fun e => hn (by rw [e]; decide)
    have e16 : name ≠ "content-type" := fun e => hn (by rw [e]; decide)
    have e17 : name ≠ "cookie" := fun e => hn (by rw [e]; decide)
    have e18 : name ≠ "date" := fun e => hn (by rw [e]; decide)
    have e19 : name ≠ "etag" := fun e => hn (by rw [e]; decide)
    have e20 : name ≠ "expect" := fun e => hn (by rw [e]; decide)
    have e21 : name ≠ "expires" := fun e => hn (by rw [e]; decide)
    have e22 : name ≠ "from" := fun e => hn (by rw [e]; decide)
    have e23 : name ≠ "host" := fun e => hn (by rw [e]; decide)
    have e24 : name ≠ "if-match" := fun e => hn (by rw [e]; decide)
    have e25 : name ≠ "if-modified-since" := fun e => hn (by rw [e]; decide)
    have e26 : name ≠ "if-none-match" := fun e => hn (by rw [e]; decide)
    have e27 : name ≠ "if-range" := fun e => hn (by rw [e]; decide)
    have e28 : name ≠ "if-unmodified-since" := fun e => hn (by rw [e]; decide)
    have e29 : name ≠ "last-modified" := fun e => hn (by rw [e]; decide)
    have e30 : name ≠ "link" := fun e => hn (by rw [e]; decide)
    have e31 : name ≠ "location" := fun e => hn (by rw [e]; decide)
    have e32 : name ≠ "max-forwards" := fun e => hn (by rw [e]; decide)
    have e33 : name ≠ "proxy-authenticate" := fun e => hn (by rw [e]; decide)
    have e34 : name ≠ "proxy-authorization" := fun e => hn (by rw [e]; decide)
    have e35 : name ≠ "range" := fun e => hn (by rw [e]; decide)
    have e36 : name ≠ "referer" := fun e => hn (by rw [e]; decide)
    have e37 : name ≠ "refresh" := fun e => hn (by rw [e]; decide)
    have e38 : name ≠ "retry-after" := fun e => hn (by rw [e]; decide)
    have e39 : name ≠ "server" := fun e => hn (by rw [e]; decide)
    have e40 : name ≠ "set-cookie" := fun e => hn (by rw [e]; decide)
    have e41 : name ≠ "strict-transport-security" := fun e => hn (by rw [e]; decide)
    have e42 : name ≠ "transfer-encoding" := fun e => hn (by rw [e]; decide)
    have e43 : name ≠ "user-agent" := fun e => hn (by rw [e]; decide)
    have e44 : name ≠ "vary" := fun e => hn (by rw [e]; decide)
    have e45 : name ≠ "via" := fun e => hn (by rw [e]; decide)
    have e46 : name ≠ "www-authenticate" := fun e => hn (by rw [e]; decide)
    simp only [index_static, if_neg e0, if_neg e1, if_neg e2, if_neg e3, if_neg e4, if_neg e5, if_neg e6, if_neg e7, if_neg e8, if_neg e9, if_neg e10, if_neg e11, if_neg e12, if_neg e13, if_neg e14, if_neg e15, if_neg e16, if_neg e17, if_neg e18, if_neg e19, if_neg e20, if_neg e21, if_neg e22, if_neg e23, if_neg e24, if_neg e25, if_neg e26, if_neg e27, if_neg e28, if_neg e29, if_neg e30, if_neg e31, if_neg e32, if_neg e33, if_neg e34, if_neg e35, if_neg e36, if_neg e37, if_neg e38, if_neg e39, if_neg e40, if_neg e41, if_neg e42, if_neg e43, if_neg e44, if_neg e45, if_neg e46]

/-- C7 witness: the static probe evaluated at representatives discharging
each hypothesis class (unknown method, path, scheme; unmatched status;
matched status pair; unmatched accept-encoding value; canonical name;
unknown name). -/
theorem c7_witness :
    index_static (.method "PUT") = some (2, false) ∧
    index_static (.path "/abc") = some (4, false) ∧
    index_static (.scheme "ftp") = some (6, false) ∧
    index_static (.status 204) = some (9, true) ∧
    index_static (.status 201) = some (8, false) ∧
    index_static (.field "accept-encoding" "br" false) = some (16, false) ∧
    index_static (.field "vary" "abc" true) = some (59, false) ∧
    index_static (.field "x-custom" "v" false) = none :=
  ⟨c7_static_table.2.2.2.1 "PUT" (by decide) (by decide),
   c7_static_table.2.2.2.2.2.2.1 "/abc" (by decide) (by decide),
   c7_static_table.2.2.2.2.2.2.2.2.2.1 "ftp" (by decide) (by decide),
   c7_static_table.2.2.2.2.2.2.2.2.2.2.1 (204, 9) (by decide),
   c7_static_table.2.2.2.2.2.2.2.2.2.2.2.1 201 (by decide),
   c7_static_table.2.2.2.2.2.2.2.2.2.2.2.2.2.1 "br" false (by decide),
   c7_static_table.2.2.2.2.2.2.2.2.2.2.2.2.2.2.1 ("vary", 59) (by decide) "abc" true,
   c7_static_table.2.2.2.2.2.2.2.2.2.2.2.2.2.2.2 "x-custom" "v" false (by decide)⟩

/-- C6: when `skip_value_index()` holds, `index` returns the static result
mapped through `Index.new` (`Indexed` on a full static match, `Name` on a
name-only match, `NotIndexed` otherwise) and leaves the table untouched; the
same holds when `skip_value_index()` is false, the static probe has no full
value match, and the header exceeds three quarters of the byte budget
(`len * 4 > max_size * 3`). -/
theorem c6_policy_early_returns :
    (∀ n : Nat, ∀ h : Header, Index.new none h = .NotIndexed h ∧
      Index.new (some (n, true)) h = .Indexed n h ∧
      Index.new (some (n, false)) h = .Name n h) ∧
    (∀ t : Table, ∀ h : Header, h.skip_value_index = true →
      t.index h = some (Index.new (index_static h) h, t)) ∧
    (∀ t : Table, ∀ h : Header, h.skip_value_index = false →
      (index_static h = none ∨ ∃ n, index_static h = some (n, false)) →
      h.len * 4 > t.max_size * 3 →
      t.index h = some (Index.new (index_static h) h, t)) := by
  refine ⟨fun n h => ⟨rfl, rfl, rfl⟩, ?_, ?_⟩
  · intro t h hs
    simp only [Table.index, hs, if_true]
  · intro t h hs hstat hlen
    rcases hstat with hst | ⟨n, hst⟩ <;>
      simp only [Table.index, hs, Bool.false_eq_true, if_false, hst, if_pos hlen]

/-- C6 witness: the skip-value path on `age: 1` (static name match, so
`Name 21`, table untouched) and the oversize path on `b: c` against
`max_size = 10` (no static entry, so `NotIndexed`, table untouched). -/
theorem c6_witness :
    (Table.new 100 0).index (.field "age" "1" false) =
      some (.Name 21 (.field "age" "1" false), Table.new 100 0) ∧
    (Table.new 10 0).index (.field "b" "c" false) =
      some (.NotIndexed (.field "b" "c" false), Table.new 10 0) :=
  ⟨c6_policy_early_returns.2.1 (Table.new 100 0) (.field "age" "1" false) (by decide),
   c6_policy_early_returns.2.2 (Table.new 10 0) (.field "b" "c" false) (by decide)
     (Or.inl (by decide)) (by decide)⟩

theorem wadd_lt (a b : Nat) : wadd a b < W := by unfold wadd W; omega

theorem wsub_lt (a b : Nat) : wsub a b < W := by unfold wsub W; omega

theorem wadd_zero {a : Nat} (ha : a < W) : wadd a 0 = a := by unfold wadd W at *; omega

theorem wadd_wadd (a b c : Nat) : wadd (wadd a b) c = wadd a (b + c) := by
  unfold wadd W; omega

theorem wsub_wadd_cancel {a b : Nat} (ha : a < W) (_hb : b < W) : wsub (wadd a b) b = a := by
  unfold wadd wsub W at *; omega

theorem wsub_succ {j E : Nat} (_hE : E < W) (h1 : 1 ≤ wsub j E) :
    wsub j (wadd E 1) = wsub j E - 1 := by
  unfold wadd wsub W at *; omega

theorem header_len_ge (h : Header) : 32 ≤ h.len := by unfold Header.len; omega

theorem sumLens_append (l1 l2 : List Slot) :
    sumLens (l1 ++ l2) = sumLens l1 + sumLens l2 := by
  induction l1 with
  | nil => simp [sumLens]
  | cons s l ih => simp [sumLens, ih]; omega

theorem sumLens_ge (l : List Slot) : 32 * l.length ≤ sumLens l := by
  induction l with
  | nil => simp [sumLens]
  | cons s l ih =>
    simp only [sumLens, List.length_cons]
    have := header_len_ge s.header
    omega

theorem sumLens_set {l : List Slot} {i : Nat} {s : Slot} (s' : Slot) (hs : l[i]? = some s)
    (hh : s'.header = s.header) : sumLens (l.set i s') = sumLens l := by
  induction l generalizing i with
  | nil => simp at hs
  | cons a l ih =>
    cases i with
    | zero =>
      simp only [List.getElem?_cons_zero, Option.some_inj] at hs
      subst hs
      simp [List.set, sumLens, hh]
    | succ n =>
      simp only [List.getElem?_cons_succ] at hs
      simp [List.set, sumLens, ih hs]

theorem evict_spec {t : Table} {prev : Nat} {t' : Table} (h : t.evict prev = some t') :
    ∃ s rest, t.slots = s :: rest ∧ t'.slots = rest ∧ t'.evicted = wadd t.evicted 1 ∧
      s.header.len ≤ t.size ∧ t'.size = t.size - s.header.len ∧
      t'.max_size = t.max_size ∧ t'.mask = t.mask := by
  unfold Table.evict at h
  split at h
  · exact absurd h (by simp)
  · next s rest heq =>
    split at h
    · next hle =>
      split at h
      · exact absurd h (by simp)
      · next p hev =>
        refine ⟨s, rest, heq, ?_⟩
        cases h
        simp [hle]
    · exact absurd h (by simp)

theorem nextOkAt_eq {t : Table} {o : Nat} {s : Slot} (ho : t.slots[o]? = some s) :
    nextOkAt t o = nextLinkOk t o s := by
  unfold nextOkAt
  rw [ho]

theorem nextLinkOk_some {t : Table} {o j : Nat} {s : Slot} (hj : s.next = some j) :
    nextLinkOk t o s = nextTargetOk t o j s := by
  unfold nextLinkOk
  rw [hj]

theorem nextLinkOk_none {t : Table} {o : Nat} {s : Slot} (hj : s.next = none) :
    nextLinkOk t o s = true := by
  unfold nextLinkOk
  rw [hj]

theorem nextTargetOk_some {t : Table} {o j : Nat} {s s2 : Slot}
    (h2 : t.slots[wsub j t.evicted]? = some s2) :
    nextTargetOk t o j s =
      (decide (j < W) && decide (o < wsub j t.evicted) &&
        (s2.header.name == s.header.name)) := by
  unfold nextTargetOk
  rw [h2]

theorem nextTargetOk_none {t : Table} {o j : Nat} {s : Slot}
    (h2 : t.slots[wsub j t.evicted]? = none) :
    nextTargetOk t o j s = false := by
  unfold nextTargetOk
  rw [h2]

theorem nextOk_elim {t : Table} (hn : NextOk t) {o : Nat} {s : Slot} {j : Nat}
    (ho : t.slots[o]? = some s) (hj : s.next = some j) :
    j < W ∧ o < wsub j t.evicted ∧
      ∃ s2, t.slots[wsub j t.evicted]? = some s2 ∧ s2.header.name = s.header.name := by
  have hlen : o < t.slots.length := by
    rcases List.getElem?_eq_some_iff.mp ho with ⟨hl, _⟩; exact hl
  have hb := hn o hlen
  rw [nextOkAt_eq ho, nextLinkOk_some hj] at hb
  cases h2 : t.slots[wsub j t.evicted]? with
  | none => rw [nextTargetOk_none h2] at hb; simp at hb
  | some s2 =>
    rw [nextTargetOk_some h2] at hb
    simp only [Bool.and_eq_true, decide_eq_true_eq, beq_iff_eq] at hb
    exact ⟨hb.1.1, hb.1.2, s2, rfl, hb.2⟩

theorem nextOk_intro {t : Table}
    (H : ∀ o s j, t.slots[o]? = some s → s.next = some j →
      j < W ∧ o < wsub j t.evicted ∧
        ∃ s2, t.slots[wsub j t.evicted]? = some s2 ∧ s2.header.name = s.header.name) :
    NextOk t := by
  intro o ho
  cases hs : t.slots[o]? with
  | none => unfold nextOkAt; rw [hs]
  | some s =>
    rw [nextOkAt_eq hs]
    cases hj : s.next with
    | none => exact nextLinkOk_none hj
    | some j =>
      obtain ⟨h1, h2, s2, hs2, hname⟩ := H o s j hs hj
      rw [nextLinkOk_some hj, nextTargetOk_some hs2]
      simp [h1, h2, hname]

theorem evict_nextOk {t t' : Table} {prev : Nat} (hev : t.evict prev = some t')
    (hE : t.evicted < W) (hn : NextOk t) : NextOk t' := by
  obtain ⟨s, rest, hsl, hsl', hE', _hle, _hsz, _hmax, _hmask⟩ := evict_spec hev
  apply nextOk_intro
  intro o so j ho hj
  have ho1 : t.slots[o + 1]? = some so := by
    rw [hsl, List.getElem?_cons_succ]
    rw [hsl'] at ho
    exact ho
  obtain ⟨hjW, hlt, s2, hs2, hname⟩ := nextOk_elim hn ho1 hj
  have hjo1 : 1 ≤ wsub j t.evicted := by omega
  have hshift : wsub j t'.evicted = wsub j t.evicted - 1 := by
    rw [hE']; exact wsub_succ hE hjo1
  refine ⟨hjW, ?_, s2, ?_, hname⟩
  · rw [hshift]; omega
  · rw [hshift, hsl']
    rw [hsl] at hs2
    have e1 : wsub j t.evicted - 1 + 1 = wsub j t.evicted := by omega
    rw [show rest[wsub j t.evicted - 1]? = (s :: rest)[wsub j t.evicted - 1 + 1]? from
      (List.getElem?_cons_succ).symm, e1]
    exact hs2

theorem convergeLoop_spec {prev : Nat} :
    ∀ (fuel : Nat) (t : Table) (r b : Bool) (t' : Table),
      t.convergeLoop prev r fuel = some (b, t') → t.evicted < W →
      t'.max_size = t.max_size ∧ t'.mask = t.mask ∧ t'.size ≤ t'.max_size ∧
      t'.evicted < W ∧
      ∃ k, k ≤ t.slots.length ∧ t'.slots = t.slots.drop k ∧
        t'.evicted = wadd t.evicted k ∧
        ∀ p, t.size = sumLens t.slots + p → t'.size = sumLens t'.slots + p := by
  intro fuel
  induction fuel with
  | zero => intro t r b t' h _; simp [Table.convergeLoop] at h
  | succ fuel ih =>
    intro t r b t' h hE
    unfold Table.convergeLoop at h
    split at h
    · split at h
      · exact absurd h (by simp)
      · next t1 hev =>
        obtain ⟨s, rest, hsl, hsl', hE', hle, hsz, hmax, hmask⟩ := evict_spec hev
        have hE1 : t1.evicted < W := by rw [hE']; exact wadd_lt _ _
        obtain ⟨m1, m2, m3, m4, k, hk, hks, hkE, hsum⟩ := ih t1 true b t' h hE1
        rw [hsl'] at hk
        refine ⟨by rw [m1, hmax], by rw [m2, hmask], m3, m4, k + 1, ?_, ?_, ?_, ?_⟩
        · rw [hsl]; simp only [List.length_cons]; omega
        · rw [hks, hsl', hsl, List.drop_succ_cons]
        · rw [hkE, hE', wadd_wadd, Nat.add_comm 1 k]
        · intro p hp
          apply hsum
          rw [hsl] at hp
          rw [hsl']
          simp only [sumLens] at hp
          omega
    · next hng =>
      cases h
      exact ⟨rfl, rfl, by omega, hE, 0, Nat.zero_le _, by simp, (wadd_zero hE).symm,
        fun p hp => hp⟩

theorem convergeLoop_nextOk {prev : Nat} :
    ∀ (fuel : Nat) (t : Table) (r b : Bool) (t' : Table),
      t.convergeLoop prev r fuel = some (b, t') → t.evicted < W → NextOk t →
      NextOk t' := by
  intro fuel
  induction fuel with
  | zero => intro t r b t' h _ _; simp [Table.convergeLoop] at h
  | succ fuel ih =>
    intro t r b t' h hE hn
    unfold Table.convergeLoop at h
    split at h
    · split at h
      · exact absurd h (by simp)
      · next t1 hev =>
        have hE' : t1.evicted < W := by
          obtain ⟨_, _, _, _, hE', _⟩ := evict_spec hev
          rw [hE']; exact wadd_lt _ _
        exact ih t1 true b t' h hE' (evict_nextOk hev hE hn)
    · cases h; exact hn

theorem grow_frame {t t1 : Table} {c : Nat} (h : t.grow c = some t1) :
    t1.slots = t.slots ∧ t1.size = t.size ∧ t1.evicted = t.evicted ∧
      t1.max_size = t.max_size := by
  simp only [Table.grow] at h
  split at h
  · exact absurd h (by simp)
  · cases h; exact ⟨rfl, rfl, rfl, rfl⟩

theorem reserve_frame {t t1 : Table} (h : t.reserve_one = some t1) :
    t1.slots = t.slots ∧ t1.size = t.size ∧ t1.evicted = t.evicted ∧
      t1.max_size = t.max_size := by
  unfold Table.reserve_one at h
  split at h
  · split at h
    · cases h; exact ⟨rfl, rfl, rfl, rfl⟩
    · exact grow_frame h
  · cases h; exact ⟨rfl, rfl, rfl, rfl⟩

theorem occupied_link_offset {x E k L B : Nat} (_hE : E < W)
    (hkL : k ≤ L) (hLB : L ≤ B) (hB : 4 * B < W)
    (ho : wsub x E < L)
    (hr : wsub x (wadd E k) < L - k) :
    wsub x (wadd E k) = wsub x E - k ∧ k ≤ wsub x E := by
  unfold wsub wadd W at *
  omega

theorem probeDecision_occupied {t : Table} {hash : Nat} {name : String} :
    ∀ (fuel probe dist i : Nat),
      t.probeDecision hash name probe dist fuel = some (.occupied i) →
      ∃ s, t.slots[wsub i t.evicted]? = some s ∧ s.header.name = name := by
  intro fuel
  induction fuel with
  | zero => intro probe dist i h; simp [Table.probeDecision] at h
  | succ fuel ih =>
    intro probe dist i h
    unfold Table.probeDecision at h
    split at h
    · split at h
      · split at h
        · simp at h
        · split at h
          · split at h
            · exact absurd h (by simp)
            · next slot hslot =>
              split at h
              · next hnm =>
                cases h
                exact ⟨slot, hslot, hnm⟩
              · exact ih _ _ _ h
          · exact ih _ _ _ h
      · simp at h
    · exact ih _ _ _ h

theorem walk_tail {t : Table} {hd : Header} (hn : NextOk t) {N : String} :
    ∀ (fuel idx r i : Nat), t.walkOutcome hd idx fuel = some (.tail r i) →
      (∃ s0, t.slots[wsub idx t.evicted]? = some s0 ∧ s0.header.name = N) →
      r = wsub i t.evicted ∧
        ∃ st, t.slots[wsub i t.evicted]? = some st ∧ st.header.name = N ∧
          st.next = none := by
  intro fuel
  induction fuel with
  | zero => intro idx r i h _; simp [Table.walkOutcome] at h
  | succ fuel ih =>
    intro idx r i h hstart
    obtain ⟨s0, hs0, hname⟩ := hstart
    simp only [Table.walkOutcome] at h
    split at h
    · exact absurd h (by simp)
    · next slot hslot =>
      have hseq : slot = s0 := by
        rw [hslot] at hs0; exact Option.some_inj.mp hs0
      subst hseq
      split at h
      · simp at h
      · split at h
        · next nxt hnext =>
          obtain ⟨_, _, s2, hs2, hname2⟩ := nextOk_elim hn hslot hnext
          exact ih nxt r i h ⟨s2, hs2, by rw [hname2, hname]⟩
        · next hnext =>
          cases h
          exact ⟨rfl, slot, hslot, hname, hnext⟩

theorem slots_update (t : Table) (l : List Slot) :
    ({ t with slots := l } : Table).slots = l := rfl

theorem evicted_update (t : Table) (l : List Slot) :
    ({ t with slots := l } : Table).evicted = t.evicted := rfl

theorem nextOk_append {t : Table} (hn : NextOk t) {s : Slot}
    (hnew : s.next = none) :
    NextOk { t with slots := t.slots ++ [s] } := by
  apply nextOk_intro
  intro o so j ho hj
  simp only [slots_update, evicted_update] at ho ⊢
  by_cases hol : o < t.slots.length
  · rw [List.getElem?_append_left hol] at ho
    obtain ⟨h1, h2, s2, hs2, hname⟩ := nextOk_elim hn ho hj
    have hjo : wsub j t.evicted < t.slots.length := (List.getElem?_eq_some_iff.mp hs2).1
    refine ⟨h1, h2, s2, ?_, hname⟩
    rw [List.getElem?_append_left hjo]
    exact hs2
  · have holen : o < t.slots.length + 1 := by
      have := (List.getElem?_eq_some_iff.mp ho).1
      simpa using this
    have hoeq : o = t.slots.length := by omega
    subst hoeq
    rw [List.getElem?_concat_length] at ho
    have hseq : s = so := Option.some_inj.mp ho
    subst hseq
    rw [hnew] at hj
    exact absurd hj (by simp)

theorem nextOk_insert_link {t : Table} (hn : NextOk t) (hE : t.evicted < W)
    (hL : t.slots.length < W) {real2 : Nat} {s : Slot}
    (hs : t.slots[real2]? = some s) {hash : Nat} {hd : Header}
    (hname : hd.name = s.header.name) :
    NextOk { t with slots :=
      (t.slots.set real2 { s with next := some (wadd t.slots.length t.evicted) }) ++
        [Slot.mk hash hd none] } := by
  have hr2 : real2 < t.slots.length := (List.getElem?_eq_some_iff.mp hs).1
  have hlenset : (t.slots.set real2
      { s with next := some (wadd t.slots.length t.evicted) }).length = t.slots.length :=
    List.length_set t.slots _ _
  apply nextOk_intro
  intro o so j ho hj
  simp only [slots_update, evicted_update] at ho ⊢
  by_cases hor : o = real2
  · subst hor
    rw [List.getElem?_append_left (by omega), List.getElem?_set_self hr2] at ho
    have hso : so = { s with next := some (wadd t.slots.length t.evicted) } :=
      (Option.some_inj.mp ho).symm
    have hjv : j = wadd t.slots.length t.evicted := by
      rw [hso] at hj
      simp only [Option.some_inj] at hj
      omega
    subst hjv
    have hcan : wsub (wadd t.slots.length t.evicted) t.evicted = t.slots.length :=
      wsub_wadd_cancel hL hE
    refine ⟨wadd_lt _ _, ?_, Slot.mk hash hd none, ?_, ?_⟩
    · rw [hcan]; exact hr2
    · have hcat := List.getElem?_concat_length
        (t.slots.set o { s with next := some (wadd t.slots.length t.evicted) })
        (Slot.mk hash hd none)
      rw [hlenset] at hcat
      rw [hcan]
      exact hcat
    · rw [hso]
      simpa using hname
  · by_cases hol : o < t.slots.length
    · rw [List.getElem?_append_left (by omega),
        List.getElem?_set_ne (fun e => hor e.symm)] at ho
      obtain ⟨h1, h2, s2, hs2, hname2⟩ := nextOk_elim hn ho hj
      have hjo : wsub j t.evicted < t.slots.length := (List.getElem?_eq_some_iff.mp hs2).1
      refine ⟨h1, h2, ?_⟩
      by_cases hjr : wsub j t.evicted = real2
      · refine ⟨{ s with next := some (wadd t.slots.length t.evicted) }, ?_, ?_⟩
        · rw [List.getElem?_append_left (by omega), hjr, List.getElem?_set_self hr2]
        · have hseq : s2 = s := by
            rw [hjr, hs] at hs2; exact (Option.some_inj.mp hs2).symm
          rw [hseq] at hname2
          simpa using hname2
      · refine ⟨s2, ?_, hname2⟩
        rw [List.getElem?_append_left (by omega),
          List.getElem?_set_ne (fun e => hjr e.symm)]
        exact hs2
    · have holen : o < t.slots.length + 1 := by
        have h0 := (List.getElem?_eq_some_iff.mp ho).1
        simp only [List.length_append, hlenset, List.length_singleton] at h0
        omega
      have hoeq : o = (t.slots.set real2
          { s with next := some (wadd t.slots.length t.evicted) }).length := by
        rw [hlenset]; omega
      rw [hoeq, List.getElem?_concat_length] at ho
      have hsonew : so = Slot.mk hash hd none := (Option.some_inj.mp ho).symm
      rw [hsonew] at hj
      exact absurd hj (by simp)

theorem nextOk_of_eq (t : Table) {t1 : Table} (hs : t1.slots = t.slots)
    (he : t1.evicted = t.evicted) (hn : NextOk t) : NextOk t1 := by
  apply nextOk_intro
  intro o s j ho hj
  rw [hs] at ho
  obtain ⟨h1, h2, s2, hs2, hname⟩ := nextOk_elim hn ho hj
  rw [he, hs]
  exact ⟨h1, h2, s2, hs2, hname⟩

theorem length_le_budget {t : Table} (h1 : t.size = sumLens t.slots)
    (h2 : t.size ≤ t.max_size) : t.slots.length ≤ t.max_size / 32 := by
  have := sumLens_ge t.slots
  omega

theorem index_vacant_inv {t : Table} {h : Header} {hash dist probe : Nat}
    {statik : Option (Nat × Bool)} {r : Index} {t' : Table}
    (hI : Inv t) (hv : t.index_vacant h hash dist probe statik = some (r, t')) :
    Inv t' := by
  obtain ⟨hsum, hle, hmax, hE, hn⟩ := hI
  simp only [Table.index_vacant] at hv
  split at hv
  · cases hv; exact ⟨hsum, hle, hmax, hE, hn⟩
  · split at hv
    · exact absurd hv (by simp)
    · next ret t1 hus =>
      unfold Table.update_size Table.converge at hus
      obtain ⟨m1, m2, m3, m4, k, hk, hks, hkE, hsump⟩ :=
        convergeLoop_spec _ _ _ _ _ hus hE
      have ht1sum : t1.size = sumLens t1.slots + h.len := hsump h.len (by rw [hsum])
      have hnt1 : NextOk t1 := convergeLoop_nextOk _ _ _ _ _ hus hE hn
      split at hv
      · exact absurd hv (by simp)
      · next probe2 hps =>
        split at hv
        · split at hv
          · exact absurd hv (by simp)
          · next t4 hafter =>
            have ht4 : t4.slots = t1.slots ++ [Slot.mk hash h none] ∧
                t4.evicted = t1.evicted ∧ t4.size = t1.size ∧
                t4.max_size = t1.max_size := by
              split at hafter
              · cases hafter; exact ⟨rfl, rfl, rfl, rfl⟩
              · split at hafter
                · exact absurd hafter (by simp)
                · cases hafter; exact ⟨rfl, rfl, rfl, rfl⟩
            obtain ⟨e1, e2, e3, e4⟩ := ht4
            have hres : Inv t4 := by
              refine ⟨?_, by rw [e3, e4]; exact m3, by rw [e4]; rw [m1] at *; exact hmax,
                by rw [e2]; exact m4, ?_⟩
              · rw [e3, e1, sumLens_append, ht1sum]
                simp [sumLens]
              · exact nextOk_of_eq { t1 with slots := t1.slots ++ [Slot.mk hash h none] }
                  (by rw [e1]) (by rw [e2]) (nextOk_append hnt1 rfl)
            split at hv <;> (cases hv; exact hres)
        · exact absurd hv (by simp)

theorem index_occupied_inv {t : Table} {h : Header} {hash idx : Nat} {r : Index}
    {t' : Table} (hI : Inv t)
    (hocc : t.index_occupied h hash idx = some (r, t'))
    (hhead : ∃ s0, t.slots[wsub idx t.evicted]? = some s0 ∧ s0.header.name = h.name) :
    Inv t' := by
  obtain ⟨hsum, hle, hmax, hE, hn⟩ := hI
  simp only [Table.index_occupied] at hocc
  split at hocc
  · exact absurd hocc (by simp)
  · cases hocc; exact ⟨hsum, hle, hmax, hE, hn⟩
  · next r0 i hw =>
    split at hocc
    · cases hocc; exact ⟨hsum, hle, hmax, hE, hn⟩
    · split at hocc
      · exact absurd hocc (by simp)
      · next b t1 hus =>
        unfold Table.update_size Table.converge at hus
        obtain ⟨m1, m2, m3, m4, k, hk, hks, hkE, hsump⟩ :=
          convergeLoop_spec _ _ _ _ _ hus hE
        have ht1sum : t1.size = sumLens t1.slots + h.len := hsump h.len (by rw [hsum])
        have hnt1 : NextOk t1 := convergeLoop_nextOk _ _ _ _ _ hus hE hn
        obtain ⟨hr0, st, hst, hstN, hstnext⟩ := walk_tail hn _ idx r0 i hw hhead
        have hLB : t.slots.length ≤ t.max_size / 32 := length_le_budget hsum hle
        have h4B : 4 * (t.max_size / 32) < W := by
          unfold W at *
          omega
        have hL1 : t1.slots.length = t.slots.length - k := by
          rw [hks]
          exact List.length_drop k _
        have hL1W : t1.slots.length < W := by
          unfold W at *
          omega
        split at hocc
        · exact absurd hocc (by simp)
        · next t2 hlink =>
          cases hocc
          split at hlink
          · next hgd =>
            split at hlink
            · exact absurd hlink (by simp)
            · next s hs2 =>
              cases hlink
              have hreal : wsub i t1.evicted < t.slots.length - k := by
                have := (List.getElem?_eq_some_iff.mp hs2).1
                omega
              have hoff : wsub i (wadd t.evicted k) = wsub i t.evicted - k ∧
                  k ≤ wsub i t.evicted := by
                apply occupied_link_offset hE hk hLB h4B
                · exact (List.getElem?_eq_some_iff.mp hst).1
                · rw [← hkE]
                  exact hreal
              have hseq : s = st := by
                have hx : t1.slots[wsub i t1.evicted]? = t.slots[wsub i t.evicted]? := by
                  rw [hks, hkE, hoff.1, List.getElem?_drop]
                  congr 1
                  omega
                rw [hx, hst] at hs2
                exact (Option.some_inj.mp hs2).symm
              refine ⟨?_, m3, by show t1.max_size < W; rw [m1]; exact hmax, m4, ?_⟩
              · show t1.size =
                  sumLens ((t1.slots.set (wsub i t1.evicted)
                    { s with next := some (wadd t1.slots.length t1.evicted) }) ++
                      [Slot.mk hash h none])
                rw [sumLens_append,
                  sumLens_set { s with next := some (wadd t1.slots.length t1.evicted) } hs2 rfl,
                  ht1sum]
                simp [sumLens]
              · exact nextOk_insert_link hnt1 m4 hL1W hs2
                  (by rw [hseq]; exact hstN.symm)
          · cases hlink
            refine ⟨?_, m3, by show t1.max_size < W; rw [m1]; exact hmax, m4, ?_⟩
            · show t1.size = sumLens (t1.slots ++ [Slot.mk hash h none])
              rw [sumLens_append, ht1sum]
              simp [sumLens]
            · exact nextOk_of_eq { t1 with slots := t1.slots ++ [Slot.mk hash h none] }
                rfl rfl (nextOk_append hnt1 rfl)

theorem index_dynamic_inv {t : Table} {h : Header} {statik : Option (Nat × Bool)}
    {r : Index} {t' : Table} (hI : Inv t)
    (hd : t.index_dynamic h statik = some (r, t')) : Inv t' := by
  simp only [Table.index_dynamic] at hd
  split at hd
  · exact absurd hd (by simp)
  · next t1 heq1 =>
    have hI1 : Inv t1 := by
      split at heq1
      · obtain ⟨f1, f2, f3, f4⟩ := reserve_frame heq1
        obtain ⟨hsum, hle, hmax, hE, hn⟩ := hI
        exact ⟨by rw [f2, f1, hsum], by rw [f2, f4]; exact hle, by rw [f4]; exact hmax,
          by rw [f3]; exact hE, nextOk_of_eq t f1 f3 hn⟩
      · cases heq1; exact hI
    split at hd
    · cases hd; exact hI1
    · split at hd
      · exact absurd hd (by simp)
      · next dist probe hpd => exact index_vacant_inv hI1 hd
      · next i hpd =>
        exact index_occupied_inv hI1 hd (probeDecision_occupied _ _ _ _ hpd)

theorem index_inv {t : Table} {h : Header} {r : Index} {t' : Table}
    (hI : Inv t) (hix : t.index h = some (r, t')) : Inv t' := by
  simp only [Table.index] at hix
  split at hix
  · cases hix; exact hI
  · split at hix
    · cases hix; exact hI
    · split at hix
      · cases hix; exact hI
      · exact index_dynamic_inv hI hix

theorem new_inv {max_size cap : Nat} (hm : max_size < W) :
    Inv (Table.new max_size cap) := by
  unfold Table.new
  split
  · exact ⟨rfl, Nat.zero_le _, hm, by show (0 : Nat) < W; decide,
      fun o ho => absurd ho (Nat.not_lt_zero o)⟩
  · exact ⟨rfl, Nat.zero_le _, hm, by show (0 : Nat) < W; decide,
      fun o ho => absurd ho (Nat.not_lt_zero o)⟩

theorem resize_inv {t : Table} {n : Nat} {t' : Table} (hI : Inv t) (hnW : n < W)
    (hr : t.resize n = some t') : Inv t' := by
  obtain ⟨hsum, hle, hmax, hE, hnk⟩ := hI
  simp only [Table.resize] at hr
  split at hr
  · cases hr
    exact ⟨rfl, Nat.zero_le _, hnW, by show (0 : Nat) < W; decide,
      fun o ho => absurd ho (Nat.not_lt_zero o)⟩
  · split at hr
    · exact absurd hr (by simp)
    · next b t2 hcv =>
      cases hr
      unfold Table.converge at hcv
      obtain ⟨m1, m2, m3, m4, k, hk, hks, hkE, hsump⟩ :=
        convergeLoop_spec _ _ _ _ _ hcv hE
      have ht2sum : t'.size = sumLens t'.slots + 0 :=
        hsump 0 (by show t.size = sumLens t.slots + 0; omega)
      refine ⟨by omega, m3, by show t'.max_size < W; rw [m1]; exact hnW, m4, ?_⟩
      exact convergeLoop_nextOk _ _ _ _ _ hcv hE hnk

theorem reachable_inv {t : Table} (h : Reachable t) : Inv t := by
  induction h with
  | new max_size capacity hm hc => exact new_inv hm
  | index t0 hd r t' _ hstep ih => exact index_inv ih hstep
  | resize t0 n t' hn _ hstep ih => exact resize_inv ih hn hstep

theorem chain_names_eq {t : Table} (hn : NextOk t) {a b : Nat}
    (hab : Relation.ReflTransGen (NextStep t) a b) :
    ∀ {sa sb : Slot}, t.slots[a]? = some sa → t.slots[b]? = some sb →
      sb.header.name = sa.header.name := by
  induction hab with
  | refl =>
    intro sa sb ha hb
    rw [ha] at hb
    rw [Option.some_inj.mp hb]
  | tail hac hcb ih =>
    intro sa sb ha hb
    obtain ⟨sc, j, hc, hj, hwb⟩ := hcb
    obtain ⟨_, _, s2, hs2, hname⟩ := nextOk_elim hn hc hj
    rw [hwb] at hs2
    have hsb : s2 = sb := by
      rw [hb] at hs2
      exact (Option.some_inj.mp hs2).symm
    rw [← hsb, hname]
    exact ih ha hc

/-- C2 (amended): in every state reachable by `new`/`index`/`resize`, each
`next` link of a live slot points at a live slot that is strictly *newer*
(greater ring offset, i.e. more recently inserted) with the same name — so
same-name chains are ordered oldest-first — and every slot reachable from any
chain start by chasing `next` links shares that start's name. -/
theorem c2_amended_chain_links_newer :
    ∀ t : Table, Reachable t →
      (∀ o s j, t.slots[o]? = some s → s.next = some j →
        wsub j t.evicted < t.slots.length ∧ o < wsub j t.evicted ∧
        ∃ s2, t.slots[wsub j t.evicted]? = some s2 ∧
          s2.header.name = s.header.name) ∧
      (∀ a b, Relation.ReflTransGen (NextStep t) a b →
        ∀ sa sb, t.slots[a]? = some sa → t.slots[b]? = some sb →
          sb.header.name = sa.header.name) := by
  intro t ht
  have hn : NextOk t := (reachable_inv ht).2.2.2.2
  constructor
  · intro o s j ho hj
    obtain ⟨h1, h2, s2, hs2, hname⟩ := nextOk_elim hn ho hj
    exact ⟨(List.getElem?_eq_some_iff.mp hs2).1, h2, s2, hs2, hname⟩
  · intro a b hab sa sb ha hb
    exact chain_names_eq hn hab ha hb

/-- C2 witness: the amended invariant evaluated in the reachable two-entry
chain state `tabAxy`: the link from ring offset 0 targets ring offset 1,
which is live, newer than 0, and carries the same name `a`. -/
theorem c2_witness :
    wsub 1 tabAxy.evicted < tabAxy.slots.length ∧ 0 < wsub 1 tabAxy.evicted ∧
    ∃ s2, tabAxy.slots[wsub 1 tabAxy.evicted]? = some s2 ∧
      s2.header.name = (Slot.mk 60556 hdrAx (some 1)).header.name :=
  (c2_amended_chain_links_newer tabAxy reachable_tabAxy).1 0 (Slot.mk 60556 hdrAx (some 1)) 1
    (by decide) (by decide)

/-- C3: in every state reachable by `new`/`index`/`resize`, `size` equals the
sum of `header.len()` over the live slots and `size ≤ max_size`. -/
theorem c3_budget_invariant :
    ∀ t : Table, Reachable t → t.size = sumLens t.slots ∧ t.size ≤ t.max_size := by
  intro t ht
  obtain ⟨h1, h2, _⟩ := reachable_inv ht
  exact ⟨h1, h2⟩

/-- C3 witness: the budget invariant evaluated at the reachable state
`tabAxy` (two slots of 34 bytes each, `size = 68 ≤ 4096`). -/
theorem c3_witness :
    tabAxy.size = sumLens tabAxy.slots ∧ tabAxy.size ≤ tabAxy.max_size :=
  c3_budget_invariant tabAxy reachable_tabAxy

theorem evictLoop_prev_branch {indices : Array (Option Pos)}
    {mask pos_idx restLen evicted : Nat} :
    ∀ (fuel probe : Nat) {ind' : Array (Option Pos)} {j : Nat},
      evictLoop indices mask pos_idx pos_idx none restLen evicted probe fuel =
        some (ind', j) →
      ∃ pos, indices[j]? = some (some pos) ∧ pos.index = pos_idx ∧
        ind'[j]? = some (some { index := wadd (restLen + 1) evicted, hash := pos.hash }) := by
  intro fuel
  induction fuel with
  | zero => intro probe ind' j h; simp [evictLoop] at h
  | succ fuel ih =>
    intro probe ind' j h
    simp only [evictLoop] at h
    split at h
    · next hp =>
      split at h
      · exact absurd h (by simp)
      · next pos hpos =>
        split at h
        · next hmatch =>
          cases h
          refine ⟨pos, ?_, hmatch, ?_⟩
          · rw [Array.getElem?_eq_getElem hp]
            rw [show indices[probe] = some pos from hpos]
          · exact Array.getElem?_set_eq indices ⟨probe, hp⟩ _
        · exact ih _ h
    · exact ih _ h

/-- C4 (amended): in `evict(prev_idx)`, when the popped oldest slot has no
`next` link and the matched `Pos` carries logical index `prev_idx` (the
caller's in-flight chain-tail hint), the bucket is retained and its logical
index is set to `len_after_pop + 1 + evicted_before_increment` (the source
reads `self.evicted` before incrementing it), which equals
`len_after_pop + evicted_after_increment` modulo `2^64` — the logical index
the new slot will have once the caller appends it. -/
theorem c4_amended_evict_prev_branch {t : Table} {prev_idx : Nat} {s : Slot}
    {rest : List Slot} {t' : Table}
    (hsl : t.slots = s :: rest) (hnx : s.next = none) (hprev : t.evicted = prev_idx)
    (hev : t.evict prev_idx = some t') :
    ∃ (j : Nat) (pos : Pos), t.indices[j]? = some (some pos) ∧ pos.index = prev_idx ∧
      t'.indices[j]? =
        some (some { index := wadd (rest.length + 1) t.evicted, hash := pos.hash }) ∧
      wadd (rest.length + 1) t.evicted = wadd rest.length t'.evicted ∧
      t'.slots = rest ∧ t'.evicted = wadd t.evicted 1 := by
  unfold Table.evict at hev
  split at hev
  · next heq => rw [hsl] at heq; exact absurd heq (by simp)
  · next s0 rest0 heq =>
    rw [hsl] at heq
    injection heq with hs0 hrest0
    subst hs0
    subst hrest0
    split at hev
    · split at hev
      · exact absurd hev (by simp)
      · next inds j hloop =>
        rw [hnx, ← hprev] at hloop
        obtain ⟨pos, hbucket, hidx, hset⟩ := evictLoop_prev_branch _ _ hloop
        cases hev
        refine ⟨j, pos, hbucket, by rw [← hprev]; exact hidx, hset, ?_, rfl, rfl⟩
        show wadd (rest.length + 1) t.evicted = wadd rest.length (wadd t.evicted 1)
        unfold wadd W
        omega
    · exact absurd hev (by simp)

/-- C4 witness: the amended statement applied to the reachable tight-budget
state `tabTight` (one slot `a: x`, logical index 0, `prev_idx = 0`, exactly
the `evict 0` call that `index(a: y)` makes through `update_size(34, 0)`):
the bucket is retained with stored logical index `0 + 1 + 0 = 1`. -/
theorem c4_witness :
    ∃ (j : Nat) (pos : Pos), tabTight.indices[j]? = some (some pos) ∧ pos.index = 0 ∧
      tabTightEvicted.indices[j]? =
        some (some { index := wadd (([] : List Slot).length + 1) tabTight.evicted,
                     hash := pos.hash }) ∧
      wadd (([] : List Slot).length + 1) tabTight.evicted =
        wadd ([] : List Slot).length tabTightEvicted.evicted ∧
      tabTightEvicted.slots = ([] : List Slot) ∧
      tabTightEvicted.evicted = wadd tabTight.evicted 1 :=
  c4_amended_evict_prev_branch
    (by decide : tabTight.slots = Slot.mk 60556 hdrAx none :: ([] : List Slot))
    (by decide) (by decide)
    (by decide : tabTight.evict 0 = some tabTightEvicted)

/-- C9: the chain walk's value-equality check precedes the sensitivity check,
so a sensitive header (`is_sensitive`, not `skip_value_index`, no full static
match, within three quarters of the budget) whose value already lives on its
name chain is returned as a full dynamic reference `Indexed(position + 62)` —
not `Name` or `NotIndexed` — and nothing is inserted: the returned table is
the post-`reserve_one` table, with ring and size unchanged. -/
theorem c9_sensitive_value_hit_indexed {t t1 : Table} {h : Header} {i p : Nat}
    (_hsens : h.is_sensitive = true)
    (hskip : h.skip_value_index = false)
    (hstat : index_static h = none ∨ ∃ n, index_static h = some (n, false))
    (hlen : ¬ h.len * 4 > t.max_size * 3)
    (hres : (if h.len + t.size < t.max_size ∨ h.is_sensitive = false
        then t.reserve_one else some t) = some t1)
    (hne : ¬ t1.indices.size = 0)
    (hpd : t1.probeDecision (hash_header h) h.name
        (desired_pos t1.mask (hash_header h)) 0 (2 * t1.indices.size + 2) =
      some (.occupied i))
    (hwk : t1.walkOutcome h i (t1.slots.length + 1) = some (.matched p)) :
    t.index h = some (.Indexed (p + DYN_OFFSET) h, t1) ∧
      t1.slots = t.slots ∧ t1.size = t.size := by
  have hframe : t1.slots = t.slots ∧ t1.size = t.size := by
    by_cases hc : h.len + t.size < t.max_size ∨ h.is_sensitive = false
    · rw [if_pos hc] at hres
      exact ⟨(reserve_frame hres).1, (reserve_frame hres).2.1⟩
    · rw [if_neg hc] at hres
      cases hres
      exact ⟨rfl, rfl⟩
  refine ⟨?_, hframe⟩
  rcases hstat with hst | ⟨n, hst⟩ <;>
    simp only [Table.index, hskip, Bool.false_eq_true, if_false, hst, if_neg hlen,
      Table.index_dynamic, hres, if_neg hne, Table.index_occupied, hpd, hwk]

/-- C9 witness: on `tabAx` (one live slot `a: x`), the sensitive header
`a: x` (same value) is returned as `Indexed 62` with the table unchanged —
the value hit wins over sensitivity. -/
theorem c9_witness :
    tabAx.index hdrAxS = some (.Indexed (0 + DYN_OFFSET) hdrAxS, tabAx) ∧
      tabAx.slots = tabAx.slots ∧ tabAx.size = tabAx.size :=
  c9_sensitive_value_hit_indexed (by decide) (by decide) (Or.inl (by decide))
    (by decide) (by decide) (by decide)
    (by decide : tabAx.probeDecision (hash_header hdrAxS) hdrAxS.name
      (desired_pos tabAx.mask (hash_header hdrAxS)) 0 (2 * tabAx.indices.size + 2) =
      some (.occupied 0))
    (by decide)

/-- C10: `index` can change `capacity()` without inserting: concretely, on a
fresh `max_size = 4096` table (capacity 0) the sensitive header `a: x` is
`NotIndexed` yet the returned table has an 8-bucket map (capacity 6), because
`reserve_one` runs before the sensitivity check; and in general every `index`
call on a sensitive header leaves the ring and byte size unchanged. -/
theorem c10_reserve_before_sensitive :
    ((Table.new 4096 0).capacity = 0 ∧
     (Table.new 4096 0).index hdrAxS = some (.NotIndexed hdrAxS, tabSens) ∧
     tabSens.capacity = 6 ∧ tabSens.indices.size = 8 ∧
     tabSens.slots = (Table.new 4096 0).slots ∧
     tabSens.size = (Table.new 4096 0).size) ∧
    (∀ t t' : Table, ∀ h : Header, ∀ r : Index, h.is_sensitive = true →
      t.index h = some (r, t') → t'.slots = t.slots ∧ t'.size = t.size) := by
  refine ⟨⟨by decide, by decide, by decide, by decide, by decide, by decide⟩, ?_⟩
  intro t t' h r hsens hix
  simp only [Table.index] at hix
  split at hix
  · cases hix; exact ⟨rfl, rfl⟩
  · split at hix
    · cases hix; exact ⟨rfl, rfl⟩
    · split at hix
      · cases hix; exact ⟨rfl, rfl⟩
      · simp only [Table.index_dynamic] at hix
        split at hix
        · exact absurd hix (by simp)
        · next t1 heq1 =>
          have hframe : t1.slots = t.slots ∧ t1.size = t.size := by
            split at heq1
            · exact ⟨(reserve_frame heq1).1, (reserve_frame heq1).2.1⟩
            · cases heq1; exact ⟨rfl, rfl⟩
          split at hix
          · cases hix; exact hframe
          · split at hix
            · exact absurd hix (by simp)
            · next dist probe hpd =>
              simp only [Table.index_vacant] at hix
              split at hix
              · cases hix; exact hframe
              · next hns => exact absurd hsens hns
            · next idx hpd =>
              simp only [Table.index_occupied] at hix
              split at hix
              · exact absurd hix (by simp)
              · next rr hwo => cases hix; exact hframe
              · next rr ii hwo =>
                split at hix
                · cases hix; exact hframe
                · next hns => exact absurd hsens hns

/-- C10 witness: the general frame part applied to the concrete
capacity-changing call (`Table.new 4096 0`, sensitive `a: x`, result
`NotIndexed` with table `tabSens`). -/
theorem c10_witness :
    tabSens.slots = (Table.new 4096 0).slots ∧
      tabSens.size = (Table.new 4096 0).size :=
  c10_reserve_before_sensitive.2 (Table.new 4096 0) tabSens hdrAxS
    (.NotIndexed hdrAxS) (by decide) (by decide)

end Hpack
